import Mathlib

/-!
Hartree-Fock SCF with DIIS (project8) and molecular geometry (project1).

A shallow embedding of `project8/project8_arma.cpp` and of the out-of-plane
angle routine of `project1/molecule.cpp`, followed by the properties proved
about them.

* `arma::mat` is a record of run-time dimensions and an entry map; `A(i,j)` is
  `A.elem i j` and the assignment `A(i,j) = v` is `A.set i j v`.
* Arithmetic is exact: entries live in a commutative ring (or ordered field).
* Armadillo operations that check conformance (`dot`, `*`, `cols`) return
  `Option`; `none` is the exception Armadillo raises.
* `for (int i = 0; i < n; i++)` loops are `forLoop n body` / `forLoopM n body`.
* Library routines without source here (`eig_sym`, `inv`, `sqrt`, `sin`, ...)
  are parameters of the definitions that call them.
-/

namespace Crawdad

/-! ## Definitions -/

/-- Dense matrix with run-time dimensions, as `arma::mat`. -/
structure Mat (α : Type) where
  n_rows : Nat
  n_cols : Nat
  elem : Nat → Nat → α

/-- The loop `for (int i = 0; i < n; i++) s = body i s`. -/
def forLoop {σ : Type} : Nat → (Nat → σ → σ) → σ → σ
  | 0, _, s => s
  | n + 1, body, s => body n (forLoop n body s)

/-- The loop `for (int i = 0; i < n; i++)` whose body may raise. -/
def forLoopM {σ : Type} : Nat → (Nat → σ → Option σ) → σ → Option σ
  | 0, _, s => some s
  | n + 1, body, s => (forLoopM n body s).bind (body n)

namespace Mat

variable {α : Type} {R : Type}

instance [Zero α] : Inhabited (Mat α) := ⟨⟨0, 0, fun _ _ => 0⟩⟩

/-- Number of stored elements. -/
def n_elem (A : Mat α) : Nat := A.n_rows * A.n_cols

/-- The assignment `A(i,j) = v`. -/
def set (A : Mat α) (i j : Nat) (v : α) : Mat α :=
  { A with elem := fun r c => if r = i ∧ c = j then v else A.elem r c }

/-- The transpose `A.t()`. -/
def t (A : Mat α) : Mat α :=
  ⟨A.n_cols, A.n_rows, fun i j => A.elem j i⟩

/-- Element `k` of the column-major storage of `A`. -/
def lin (A : Mat α) (k : Nat) : α := A.elem (k % A.n_rows) (k / A.n_rows)

/-- The call `arma::dot(A, B)`: both operands are read as flat column-major
vectors; Armadillo raises unless they hold the same number of elements. -/
def dot [CommRing R] (A B : Mat R) : Option R :=
  if A.n_elem = B.n_elem then
    some (∑ k ∈ Finset.range A.n_elem, A.lin k * B.lin k)
  else none

section ring

variable {R : Type} [CommRing R]

/-- The matrix product `A * B`; Armadillo raises on non-conforming sizes. -/
def mul (A B : Mat R) : Option (Mat R) :=
  if A.n_cols = B.n_rows then
    some ⟨A.n_rows, B.n_cols,
      fun i j => ∑ k ∈ Finset.range A.n_cols, A.elem i k * B.elem k j⟩
  else none

/-- The difference `A - B`; Armadillo raises on non-conforming sizes. -/
def sub (A B : Mat R) : Option (Mat R) :=
  if A.n_rows = B.n_rows ∧ A.n_cols = B.n_cols then
    some ⟨A.n_rows, A.n_cols, fun i j => A.elem i j - B.elem i j⟩
  else none

/-- A matrix of zeros (`arma::fill::zeros`). -/
def zeros (r c : Nat) : Mat R := ⟨r, c, fun _ _ => 0⟩

/-- Reading the values of a matrix whose entries record assignment.  An
entry that was never assigned has no defined value; it is read as `0` here. -/
def vals (B : Mat (Option R)) : Mat R :=
  ⟨B.n_rows, B.n_cols, fun i j => (B.elem i j).getD 0⟩

/-- The column range `A.cols(in_col1, in_col2)`; Armadillo raises when
`in_col1 > in_col2` or `in_col2 >= n_cols`. -/
def cols (A : Mat R) (in_col1 in_col2 : Nat) : Option (Mat R) :=
  if in_col1 ≤ in_col2 ∧ in_col2 < A.n_cols then
    some ⟨A.n_rows, in_col2 - in_col1 + 1, fun i j => A.elem i (in_col1 + j)⟩
  else none

/-- The trace: the sum of the main diagonal. -/
def trace (A : Mat R) : R := ∑ i ∈ Finset.range (min A.n_rows A.n_cols), A.elem i i

/-- The diagonal matrix `arma::diagmat(v)` of a column vector `v`. -/
def diagmat (v : Mat R) : Mat R :=
  ⟨v.n_rows, v.n_rows, fun i j => if i = j then v.elem i 0 else 0⟩

/-- An element-wise function such as `arma::sqrt(A)`. -/
def map (f : R → R) (A : Mat R) : Mat R :=
  ⟨A.n_rows, A.n_cols, fun i j => f (A.elem i j)⟩

/-- The leading `m x n` block of `A` as a matrix over finite index types. -/
def toMatrix (m n : Nat) (A : Mat R) : Matrix (Fin m) (Fin n) R :=
  fun i j => A.elem i j

end ring

end Mat

section project8

variable {R : Type} [CommRing R]

/-- Source `build_B_matrix` (project8_arma.cpp, lines 79-90).  The freshly
constructed `B(NErr + 1, NErr + 1)` has no entry assigned (`none`); every
assignment stores `some v`. -/
def build_B_matrix (e : List (Mat R)) : Option (Mat (Option R)) :=
  let NErr := e.length
  let B : Mat (Option R) := ⟨NErr + 1, NErr + 1, fun _ _ => none⟩
  let B := B.set NErr NErr (some 0)
  forLoopM NErr (fun a B =>
    let B := B.set NErr a (some (-1))
    let B := B.set a NErr (some (-1))
    forLoopM (a + 1) (fun b B => do
      let d ← Mat.dot (e.getD a default).t (e.getD b default)
      let B := B.set b a (some d)
      pure (B.set a b (some d))) B) B

/-- Source `build_error_matrix` (lines 70-74): `(F*D*S) - (S*D*F)`. -/
def build_error_matrix (F D S : Mat R) : Option (Mat R) := do
  let FD ← F.mul D
  let FDS ← FD.mul S
  let SD ← S.mul D
  let SDF ← SD.mul F
  FDS.sub SDF

/-- Source `build_diis_zero_vec` (lines 111-115): a zero column of length
`len` whose last element is `-1`.  The column vector is a matrix with one
column; for `len = 0` the element access `(len - 1)` is out of bounds. -/
def build_diis_zero_vec (len : Nat) : Option (Mat R) :=
  if 0 < len then some ((Mat.zeros len 1).set (len - 1) 0 (-1)) else none

/-- Source `build_fock` (lines 31-43).  The packed-index helper `idx4` comes
from `utils.hpp`, which is not part of the sources at hand: it is a
parameter.  `ERI` is a column vector (a matrix with one column). -/
def build_fock (idx4 : Nat → Nat → Nat → Nat → Nat) (F P H ERI : Mat R) : Mat R :=
  forLoop H.n_rows (fun mu F =>
    forLoop H.n_cols (fun nu F =>
      let F := F.set mu nu (H.elem mu nu)
      forLoop P.n_rows (fun lam F =>
        forLoop P.n_cols (fun sig F =>
          F.set mu nu (F.elem mu nu + P.elem lam sig *
            (2 * ERI.elem (idx4 mu nu lam sig) 0 - ERI.elem (idx4 mu lam nu sig) 0)))
          F) F) F) F

/-- Source `make_density` (lines 21-25): `P = C.cols(0, NOcc-1) * C.cols(0,
NOcc-1).t()`; the result replaces `P` whatever it held.  A negative
`NOcc - 1` becomes, as an unsigned index, larger than any column count, so
`cols` raises. -/
def make_density (C : Mat R) (NOcc : Int) : Option (Mat R) :=
  if 0 ≤ NOcc - 1 then do
    let Cocc ← C.cols 0 (NOcc - 1).toNat
    Cocc.mul Cocc.t
  else none

/-- The orthogonalization block of `main` (lines 202-208), named after the
variable it computes.  The library routines are parameters: `eig_sym`
returns the eigenvalue column and the eigenvector matrix, `inv` is
`arma::inv`, `sqrt` is the scalar square root applied element-wise by
`arma::sqrt`. -/
def Symm_Orthog (eig_sym : Mat R → Mat R × Mat R) (inv : Mat R → Option (Mat R))
    (sqrt : R → R) (S : Mat R) : Option (Mat R) := do
  let Lam_S_vec := (eig_sym S).1
  let L_S := (eig_sym S).2
  let Lam_S_mat := Mat.diagmat Lam_S_vec
  let Lam_inv ← inv Lam_S_mat
  let Lam_sqrt_inv := Mat.map sqrt Lam_inv
  let T ← L_S.mul Lam_sqrt_inv
  T.mul L_S.t

end project8

/-- A `2 x 2` error matrix with the single non-zero entry `(0,1)`. -/
def exE1 : Mat ℤ := ⟨2, 2, fun i j => if i = 0 ∧ j = 1 then 1 else 0⟩

/-- A `2 x 2` antisymmetric error matrix. -/
def exE2 : Mat ℤ :=
  ⟨2, 2, fun i j => if i = 0 ∧ j = 1 then 3 else if i = 1 ∧ j = 0 then -3 else 0⟩

/-- A coefficient column solving the DIIS system of the history `[exE2]`. -/
def exC : Mat ℤ := ⟨2, 1, fun i _ => if i = 0 then 1 else -18⟩

section driver

variable {M K : Type}

/-- The numerical kernels called by one pass of the SCF loop (`main`, lines
268-313), each with the fixed operands (`H`, `ERI`, `S`, `Symm_Orthog`,
`NOcc`) already supplied.  The control flow of the loop does not look inside
them. -/
structure Kernels (M K : Type) where
  /-- Line 269, `build_fock(F, D, H, ERI)`, as a function of `F` and `D`. -/
  fock : M → M → M
  /-- Line 272, `build_error_matrix(F, D, S)`. -/
  error_matrix : M → M → M
  /-- Lines 283-286: zero vector, `B` matrix, `arma::solve` and
  `build_extrap_fock(F, diis_coeff_vec, diis_fock_vec)`. -/
  extrapolate : List M → List M → M → M
  /-- Line 289, `Symm_Orthog.t() * F * Symm_Orthog`. -/
  orth_fock : M → M
  /-- Lines 290-291, `eig_sym` and `C = Symm_Orthog * C_prime`. -/
  coeffs : M → M
  /-- Line 293, `make_density(D, C, NOcc)`. -/
  density : M → M
  /-- Line 295, `calc_elec_energy(D, H, F)`. -/
  energy : M → M → K
  /-- Line 306, `rmsd_density(D, D_old)`. -/
  rmsd : M → M → K

/-- The variables of `main` that the SCF loop reads or writes. -/
structure SCFState (M K : Type) where
  iter : Int
  F : M
  F_prime : M
  D : M
  D_old : M
  C : M
  E_elec_new : K
  E_elec_old : K
  E_total : K
  delta_E : K
  rmsd_D : K
  diis_error_vec : List M
  diis_fock_vec : List M

/-- Line 259, `int max_diis_length = 6`. -/
def max_diis_length : Nat := 6

/-- Line 196, `int max_iter = 1024`. -/
def max_iter : Int := 1024

/-- Line 193, `double thresh_E = 1.0e-15`. -/
def thresh_E [LinearOrderedField K] : K := 1.0e-15

/-- Line 194, `double thresh_D = 1.0e-7`. -/
def thresh_D [LinearOrderedField K] : K := 1.0e-7

/-- Lines 273-279: drop the last pair when the error history has reached
`max_diis_length`, then push the new pair at the front of both deques. -/
def diis_push (h : List M × List M) (p : M × M) : List M × List M :=
  let NErr := h.1.length
  let h := if NErr ≥ max_diis_length then (h.1.dropLast, h.2.dropLast) else h
  (p.1 :: h.1, p.2 :: h.2)

/-- The block `if (iter > 0) { ... }` of the loop body (lines 271-288), run
on the Fock matrix `F` just built: returns `F` (extrapolated once the history
holds two or more pairs) and the two deques. -/
def diis_stage (k : Kernels M K) (s : SCFState M K) (F : M) : M × List M × List M :=
  if s.iter > 0 then
    let diis_error_mat := k.error_matrix F s.D
    let h := diis_push (s.diis_error_vec, s.diis_fock_vec) (diis_error_mat, F)
    let NErr := h.1.length
    if NErr ≥ 2 then (k.extrapolate h.1 h.2 F, h.1, h.2) else (F, h.1, h.2)
  else (F, s.diis_error_vec, s.diis_fock_vec)

/-- One pass through the body of the `while` loop (lines 269-312).  The
Boolean is `true` when the pass leaves through `break`. -/
def scf_step [LinearOrderedField K] (k : Kernels M K) (Vnn : K) (s : SCFState M K) :
    SCFState M K × Bool :=
  let F := k.fock s.F s.D
  let r := diis_stage k s F
  let F := r.1
  let F_prime := k.orth_fock F
  let C := k.coeffs F_prime
  let D_old := s.D
  let D := k.density C
  let E_elec_old := s.E_elec_new
  let E_elec_new := k.energy D F
  let E_total := E_elec_new + Vnn
  let delta_E := E_elec_new - E_elec_old
  let rmsd_D := k.rmsd D D_old
  if delta_E < thresh_E ∧ rmsd_D < thresh_D then
    (⟨s.iter, F, F_prime, D, D_old, C, E_elec_new, E_elec_old, E_total, delta_E,
      rmsd_D, r.2.1, r.2.2⟩, true)
  else
    (⟨s.iter + 1, F_prime, F_prime, D, D_old, C, E_elec_new, E_elec_old, E_total,
      delta_E, rmsd_D, r.2.1, r.2.2⟩, false)

/-- The loop `while (iter < max_iter) { ... }` (lines 268-313).  Returns the
state on exit, whether the exit was the `break`, and how many times the body
ran. -/
def scf_loop [LinearOrderedField K] (k : Kernels M K) (Vnn : K) (s : SCFState M K) :
    SCFState M K × Bool × Nat :=
  if s.iter < max_iter then
    if (scf_step k Vnn s).2 = true then ((scf_step k Vnn s).1, true, 1)
    else
      let out := scf_loop k Vnn (scf_step k Vnn s).1
      (out.1, out.2.1, out.2.2 + 1)
  else (s, false, 0)
termination_by (max_iter - s.iter).toNat
decreasing_by
  rename_i hlt hnb
  have hit : (scf_step k Vnn s).1.iter = s.iter + 1 := by
    unfold scf_step at hnb ⊢
    simp only at hnb ⊢
    split_ifs at hnb ⊢ <;> simp_all
  rw [hit]
  unfold max_iter at hlt ⊢
  omega

/-- The state on entry to the loop: `iter` was set to `0` (line 195) and
incremented once (line 251), `delta_E = E_total` (line 242), and both DIIS
deques are empty (lines 257-258). -/
def scf_init (F F_prime D D_old C : M) (E_elec_new E_elec_old E_total rmsd_D : K) :
    SCFState M K :=
  ⟨0 + 1, F, F_prime, D, D_old, C, E_elec_new, E_elec_old, E_total, E_total, rmsd_D,
    [], []⟩

end driver

/-- Kernels over natural-number stand-ins for matrices, for concrete runs of
the loop skeleton. -/
def exKernels : Kernels Nat ℚ :=
  ⟨fun F D => F + D, fun F D => 10 * F + D, fun _ fv _ => fv.length, fun F => F,
    fun F => F, fun C => C + 1, fun D F => (D : ℚ) + F, fun D D_old => (D : ℚ) - D_old⟩

/-- A loop state in its first pass whose DIIS history is full. -/
def exState : SCFState Nat ℚ :=
  ⟨1, 7, 0, 3, 0, 0, 5, 0, 5, 5, 0, [16, 15, 14, 13, 12, 11], [6, 5, 4, 3, 2, 1]⟩

/-- A packed four-index map for concrete runs of `build_fock`. -/
def exIdx4 (i j k l : Nat) : Nat := i + 2 * j + 4 * k + 8 * l

/-- A `2 x 2` core Hamiltonian. -/
def exH : Mat ℤ := ⟨2, 2, fun i j => (i : ℤ) + 2 * j⟩

/-- A `2 x 2` density. -/
def exP : Mat ℤ := ⟨2, 2, fun i j => if i = j then 1 else 0⟩

/-- A column of sixteen two-electron integrals. -/
def exERI : Mat ℤ := ⟨16, 1, fun i _ => (i : ℤ) * i⟩

/-- Prior content of the `2 x 2` output matrix. -/
def exF : Mat ℤ := ⟨2, 2, fun _ _ => 99⟩

/-- A `2 x 2` coefficient matrix (the identity). -/
def exC2 : Mat ℤ := ⟨2, 2, fun i j => if i = j then 1 else 0⟩

/-- A `2 x 2` overlap matrix (the identity). -/
def exS2 : Mat ℤ := ⟨2, 2, fun i j => if i = j then 1 else 0⟩

/-- Eigenvalues `(4, 9)` as a column. -/
def exLam (K : Type) [Field K] : Mat K := ⟨2, 1, fun i _ => if i = 0 then 4 else 9⟩

/-- Eigenvectors: the `2 x 2` exchange matrix. -/
def exL (K : Type) [Field K] : Mat K := ⟨2, 2, fun i j => if i + j = 1 then 1 else 0⟩

/-- The overlap matrix `diag(9, 4)`, which the exchange matrix diagonalises
to `diag(4, 9)`. -/
def exS (K : Type) [Field K] : Mat K :=
  ⟨2, 2, fun i j => if i = j then (if i = 0 then 9 else 4) else 0⟩

/-- The inverse `diag(1/4, 1/9)` of `diag(4, 9)`. -/
def exLamInv (K : Type) [Field K] : Mat K :=
  ⟨2, 2, fun i j => if i = j then (if i = 0 then 1 / 4 else 1 / 9) else 0⟩

section project1

variable {K : Type} [LinearOrderedField K]

/-- The `<cmath>` routines called by `molecule.cpp`. -/
structure LibM (K : Type) where
  sqrt : K → K
  sin : K → K
  asin : K → K
  acos : K → K

/-- The data members of `Molecule` used by `molecule.cpp`; `geom[a][c]` is
`geom a c`. -/
structure Molecule (K : Type) where
  natom : Int
  charge : Int
  zvals : Nat → K
  geom : Nat → Nat → K

namespace Molecule

/-- Source `Molecule::calc_bond` (lines 117-123). -/
def calc_bond (m : LibM K) (mol : Molecule K) (i j : Nat) : K :=
  let dx := mol.geom i 0 - mol.geom j 0
  let dy := mol.geom i 1 - mol.geom j 1
  let dz := mol.geom i 2 - mol.geom j 2
  m.sqrt ((dx * dx) + (dy * dy) + (dz * dz))

/-- Source `Molecule::bond` (lines 66-69). -/
def bond (m : LibM K) (mol : Molecule K) (i j : Nat) : K :=
  calc_bond m mol i j

/-- Source `Molecule::calc_unit` (lines 73-76): component `cart` of the unit
vector from atom `i` to atom `j`. -/
def calc_unit (m : LibM K) (mol : Molecule K) (i j cart : Nat) : K :=
  -(mol.geom i cart - mol.geom j cart) / bond m mol i j

/-- Source `Molecule::calc_angle` (lines 127-135): the angle at the central
atom `j`, in degrees. -/
def calc_angle (m : LibM K) (mol : Molecule K) (i j k : Nat) : K :=
  m.acos ((calc_unit m mol j i 0 * calc_unit m mol j k 0) +
      (calc_unit m mol j i 1 * calc_unit m mol j k 1) +
      (calc_unit m mol j i 2 * calc_unit m mol j k 2)) * (180 / m.acos (-1))

/-- Source `Molecule::angle` (lines 80-83). -/
def angle (m : LibM K) (mol : Molecule K) (i j k : Nat) : K :=
  calc_angle m mol i j k

/-- Source `Molecule::calc_angle_oop` (lines 137-176). -/
def calc_angle_oop (m : LibM K) (mol : Molecule K) (i j k l : Nat) : K :=
  let ejkl_x := (calc_unit m mol k j 1 * calc_unit m mol k l 2) -
    (calc_unit m mol k j 2 * calc_unit m mol k l 1)
  let ejkl_y := (calc_unit m mol k j 2 * calc_unit m mol k l 0) -
    (calc_unit m mol k j 0 * calc_unit m mol k l 2)
  let ejkl_z := (calc_unit m mol k j 0 * calc_unit m mol k l 1) -
    (calc_unit m mol k j 1 * calc_unit m mol k l 0)
  let exx := ejkl_x * calc_unit m mol k i 0
  let eyy := ejkl_y * calc_unit m mol k i 1
  let ezz := ejkl_z * calc_unit m mol k i 2
  let theta := (exx + eyy + ezz) / m.sin (angle m mol j k l)
  let theta :=
    if theta < -1 then m.asin (-1)
    else if theta > 1 then m.asin 1
    else m.asin theta
  theta * (180 / m.acos (-1))

/-- The out-of-plane angle as the comment at the head of `calc_angle_oop`
and the claim define it: `sin(theta) = ((e_kj x e_kl) . e_ki) / sin(phi_jkl)`
with `phi_jkl` the j-k-l bond angle, clamped, and returned in degrees. -/
def angle_oop_spec (m : LibM K) (mol : Molecule K) (i j k l : Nat) : K :=
  let e := calc_unit m mol
  let cross_x := e k j 1 * e k l 2 - e k j 2 * e k l 1
  let cross_y := e k j 2 * e k l 0 - e k j 0 * e k l 2
  let cross_z := e k j 0 * e k l 1 - e k j 1 * e k l 0
  let triple := cross_x * e k i 0 + cross_y * e k i 1 + cross_z * e k i 2
  let phi_jkl := m.acos (e k j 0 * e k l 0 + e k j 1 * e k l 1 + e k j 2 * e k l 2)
  let q := triple / m.sin phi_jkl
  let theta :=
    if q < -1 then m.asin (-1)
    else if q > 1 then m.asin 1
    else m.asin q
  theta * (180 / m.acos (-1))

end Molecule

/-- Four atoms: `i = (3,0,4)`, `j = (1,0,0)`, `k = (0,0,0)`, `l = (0,1,0)`,
stored as atoms 0, 1, 2, 3. -/
def exMol (K : Type) [Field K] : Molecule K :=
  ⟨4, 0, fun _ => 1, fun a c =>
    if a = 0 then (if c = 0 then 3 else if c = 2 then 4 else 0)
    else if a = 1 then (if c = 0 then 1 else 0)
    else if a = 3 then (if c = 1 then 1 else 0)
    else 0⟩

end project1

/-! ## Theorems -/

section loops

variable {σ : Type}

theorem forLoopM_pure (n : Nat) (body : Nat → σ → Option σ) (g : Nat → σ → σ)
    (s : σ) (h : ∀ i, i < n → ∀ x, body i x = some (g i x)) :
    forLoopM n body s = some (forLoop n g s) := by
  induction n with
  | zero => rfl
  | succ n ih =>
    have ih1 := ih (fun i hi x => h i (Nat.lt_succ_of_lt hi) x)
    simp only [forLoopM, forLoop, ih1, Option.some_bind]
    exact h n (Nat.lt_succ_self n) _

end loops

section bmatrix

theorem Mat.set_elem {α : Type} (A : Mat α) (i j : Nat) (v : α) (r c : Nat) :
    (A.set i j v).elem r c = if r = i ∧ c = j then v else A.elem r c := rfl

theorem Mat.set_n_rows {α : Type} (A : Mat α) (i j : Nat) (v : α) :
    (A.set i j v).n_rows = A.n_rows := rfl

theorem Mat.set_n_cols {α : Type} (A : Mat α) (i j : Nat) (v : α) :
    (A.set i j v).n_cols = A.n_cols := rfl

/-- The inner loop of `build_B_matrix` for a fixed `a`, once the dot products
are known to be `d b`: it fills row `a` and column `a` up to the diagonal. -/
theorem B_inner_loop {R : Type} (a : Nat) (d : Nat → R) (B0 : Mat (Option R)) (j : Nat) :
    let B := forLoop j (fun b B => (B.set b a (some (d b))).set a b (some (d b))) B0
    B.n_rows = B0.n_rows ∧ B.n_cols = B0.n_cols ∧
      ∀ r c, B.elem r c =
        if r = a ∧ c < j then some (d c)
        else if c = a ∧ r < j then some (d r) else B0.elem r c := by
  induction j with
  | zero => simp [forLoop]
  | succ j ih =>
    obtain ⟨h1, h2, h3⟩ := ih
    refine ⟨?_, ?_, ?_⟩
    · simpa [forLoop, Mat.set_n_rows] using h1
    · simpa [forLoop, Mat.set_n_cols] using h2
    · intro r c
      simp only [forLoop, Mat.set_elem, h3]
      split_ifs <;> first | rfl | (exfalso; omega) | (congr 2; omega)

/-- Both loops of `build_B_matrix` after `m` rounds of the outer one, once
the dot products are known to be `d a b`. -/
theorem B_outer_loop {R : Type} [CommRing R] (n : Nat) (d : Nat → Nat → R) (m : Nat)
    (hm : m ≤ n) :
    let B := forLoop m (fun a B =>
      forLoop (a + 1) (fun b B => (B.set b a (some (d a b))).set a b (some (d a b)))
        ((B.set n a (some (-1))).set a n (some (-1))))
      ((⟨n + 1, n + 1, fun _ _ => none⟩ : Mat (Option R)).set n n (some 0))
    B.n_rows = n + 1 ∧ B.n_cols = n + 1 ∧
      ∀ r c, B.elem r c =
        if r = n ∧ c = n then some 0
        else if (r = n ∧ c < m) ∨ (c = n ∧ r < m) then some (-1)
        else if r < m ∧ c < m then some (d (max r c) (min r c)) else none := by
  induction m with
  | zero => simp [forLoop, Mat.set]
  | succ m ih =>
    obtain ⟨h1, h2, h3⟩ := ih (Nat.le_of_succ_le hm)
    have hin := B_inner_loop m (d m)
      (((forLoop m (fun a B =>
        forLoop (a + 1) (fun b B => (B.set b a (some (d a b))).set a b (some (d a b)))
          ((B.set n a (some (-1))).set a n (some (-1))))
        ((⟨n + 1, n + 1, fun _ _ => none⟩ : Mat (Option R)).set n n (some 0))).set n m
          (some (-1))).set m n (some (-1))) (m + 1)
    obtain ⟨g1, g2, g3⟩ := hin
    refine ⟨?_, ?_, ?_⟩
    · exact g1.trans h1
    · exact g2.trans h2
    · intro r c
      refine (g3 r c).trans ?_
      simp only [Mat.set_elem, h3]
      split_ifs <;> first | rfl | (exfalso; omega) | (congr 2 <;> omega)

/-- Summing over a flat column-major index is summing over columns, then rows. -/
theorem sum_range_mul_divmod {R : Type} [CommRing R] (f : Nat → Nat → R) (N M : Nat) :
    ∑ k ∈ Finset.range (N * M), f (k % N) (k / N) =
      ∑ j ∈ Finset.range M, ∑ i ∈ Finset.range N, f i j := by
  rcases Nat.eq_zero_or_pos N with hN | hN
  · subst hN
    simp
  induction M with
  | zero => simp
  | succ M ih =>
    rw [Nat.mul_succ, Finset.sum_range_add, ih, Finset.sum_range_succ]
    congr 1
    apply Finset.sum_congr rfl
    intro x hx
    have hx1 : x < N := Finset.mem_range.mp hx
    have e1 : (N * M + x) % N = x := by
      rw [Nat.mul_add_mod]
      exact Nat.mod_eq_of_lt hx1
    have e2 : (N * M + x) / N = M := by
      rw [Nat.mul_add_div hN, Nat.div_eq_of_lt hx1, Nat.add_zero]
    rw [e1, e2]

/-- For square operands of one size, `dot(A.t(), B)` succeeds and returns
the sum over `i, j` of `A(j,i) * B(i,j)`. -/
theorem dot_t_square {R : Type} [CommRing R] (A B : Mat R) (N : Nat)
    (hA : A.n_rows = N ∧ A.n_cols = N) (hB : B.n_rows = N ∧ B.n_cols = N) :
    Mat.dot A.t B =
      some (∑ j ∈ Finset.range N, ∑ i ∈ Finset.range N, A.elem j i * B.elem i j) := by
  have h := sum_range_mul_divmod (fun i j => A.elem j i * B.elem i j) N N
  simp only [Mat.dot, Mat.n_elem, Mat.t, Mat.lin, hA.1, hA.2, hB.1, hB.2, if_true]
  rw [h]

theorem getD_square {R : Type} [CommRing R] (e : List (Mat R)) (N : Nat)
    (hsq : ∀ M ∈ e, M.n_rows = N ∧ M.n_cols = N) (a : Nat) (ha : a < e.length) :
    (e.getD a default).n_rows = N ∧ (e.getD a default).n_cols = N := by
  apply hsq
  rw [List.getD_eq_getElem e default ha]
  exact List.getElem_mem ha

/-- Closed form of `build_B_matrix` on a history of `N x N` matrices. -/
theorem build_B_matrix_closed {R : Type} [CommRing R] (e : List (Mat R)) (N : Nat)
    (hsq : ∀ M ∈ e, M.n_rows = N ∧ M.n_cols = N) :
    ∃ B, build_B_matrix e = some B ∧ B.n_rows = e.length + 1 ∧
      B.n_cols = e.length + 1 ∧
      ∀ r c, B.elem r c =
        if r = e.length ∧ c = e.length then some 0
        else if (r = e.length ∧ c < e.length) ∨ (c = e.length ∧ r < e.length) then
          some (-1)
        else if r < e.length ∧ c < e.length then
          some (∑ j ∈ Finset.range N, ∑ i ∈ Finset.range N,
            (e.getD (max r c) default).elem j i * (e.getD (min r c) default).elem i j)
        else none := by
  have key : build_B_matrix e = some (forLoop e.length (fun a B =>
      forLoop (a + 1) (fun b B =>
        (B.set b a (some (∑ j ∈ Finset.range N, ∑ i ∈ Finset.range N,
            (e.getD a default).elem j i * (e.getD b default).elem i j))).set a b
          (some (∑ j ∈ Finset.range N, ∑ i ∈ Finset.range N,
            (e.getD a default).elem j i * (e.getD b default).elem i j)))
        ((B.set e.length a (some (-1))).set a e.length (some (-1))))
      ((⟨e.length + 1, e.length + 1, fun _ _ => none⟩ : Mat (Option R)).set
        e.length e.length (some 0))) := by
    unfold build_B_matrix
    apply forLoopM_pure
    intro a ha x
    apply forLoopM_pure
    intro b hb y
    rw [dot_t_square _ _ N (getD_square e N hsq a ha)
      (getD_square e N hsq b (by omega))]
    rfl
  refine ⟨_, key, ?_⟩
  exact B_outer_loop e.length (fun a b => ∑ j ∈ Finset.range N, ∑ i ∈ Finset.range N,
    (e.getD a default).elem j i * (e.getD b default).elem i j) e.length (Nat.le_refl _)

/-- C1: on a history of `n` square matrices of one size, `build_B_matrix`
returns an `(n+1) x (n+1)` matrix with every entry assigned, symmetric, with
`B[n][n] = 0` and `B[a][n] = B[n][a] = -1` for every `a < n`. -/
theorem build_B_matrix_symmetric_bordered {R : Type} [CommRing R] (e : List (Mat R))
    (N : Nat) (hsq : ∀ M ∈ e, M.n_rows = N ∧ M.n_cols = N) :
    ∃ B, build_B_matrix e = some B ∧
      B.n_rows = e.length + 1 ∧ B.n_cols = e.length + 1 ∧
      (∀ a b, a ≤ e.length → b ≤ e.length → (B.elem a b).isSome = true) ∧
      (∀ a b, a ≤ e.length → b ≤ e.length → B.elem a b = B.elem b a) ∧
      B.elem e.length e.length = some 0 ∧
      ∀ a, a < e.length →
        B.elem a e.length = some (-1) ∧ B.elem e.length a = some (-1) := by
  obtain ⟨B, hB, hr, hc, hel⟩ := build_B_matrix_closed e N hsq
  refine ⟨B, hB, hr, hc, ?_, ?_, ?_, ?_⟩
  · intro a b ha hb
    rw [hel a b]
    split_ifs <;> first | rfl | (exfalso; omega)
  · intro a b _ _
    rw [hel a b, hel b a, Nat.max_comm b a, Nat.min_comm b a]
    split_ifs <;> first | rfl | (exfalso; omega)
  · rw [hel]
    simp
  · intro a ha
    rw [hel, hel]
    constructor
    · split_ifs <;> first | rfl | (exfalso; omega)
    · split_ifs <;> first | rfl | (exfalso; omega)

/-- Witness for C1 on a history of two `2 x 2` matrices. -/
theorem build_B_matrix_symmetric_bordered_witness :
    (∀ M ∈ [exE1, exE2], M.n_rows = 2 ∧ M.n_cols = 2) ∧
    ∃ B, build_B_matrix [exE1, exE2] = some B ∧
      B.n_rows = [exE1, exE2].length + 1 ∧ B.n_cols = [exE1, exE2].length + 1 ∧
      (∀ a b, a ≤ [exE1, exE2].length → b ≤ [exE1, exE2].length →
        (B.elem a b).isSome = true) ∧
      (∀ a b, a ≤ [exE1, exE2].length → b ≤ [exE1, exE2].length →
        B.elem a b = B.elem b a) ∧
      B.elem [exE1, exE2].length [exE1, exE2].length = some 0 ∧
      ∀ a, a < [exE1, exE2].length →
        B.elem a [exE1, exE2].length = some (-1) ∧
          B.elem [exE1, exE2].length a = some (-1) :=
  ⟨by simp [exE1, exE2],
    build_B_matrix_symmetric_bordered [exE1, exE2] 2 (by simp [exE1, exE2])⟩

/-- C2, counterexample: for the one-matrix history `[exE1]` the entry
`B[0][0]` is `0`, while the Frobenius inner product of `exE1` with itself
is `1`. -/
theorem build_B_matrix_not_frobenius :
    (∀ M ∈ [exE1], M.n_rows = 2 ∧ M.n_cols = 2) ∧
    (build_B_matrix [exE1]).map (fun B => B.elem 0 0) = some (some 0) ∧
    (∑ i ∈ Finset.range 2, ∑ j ∈ Finset.range 2,
      ([exE1].getD 0 default).elem i j * ([exE1].getD 0 default).elem i j) = 1 ∧
    ¬ ∃ B, build_B_matrix [exE1] = some B ∧
      B.elem 0 0 = some (∑ i ∈ Finset.range 2, ∑ j ∈ Finset.range 2,
        ([exE1].getD 0 default).elem i j * ([exE1].getD 0 default).elem i j) := by
  have h1 : (build_B_matrix [exE1]).map (fun B => B.elem 0 0) = some (some 0) := by
    decide
  have h2 : (∑ i ∈ Finset.range 2, ∑ j ∈ Finset.range 2,
      ([exE1].getD 0 default).elem i j * ([exE1].getD 0 default).elem i j) = 1 := by
    decide
  refine ⟨by simp [exE1], h1, h2, ?_⟩
  rintro ⟨B, hB, hB0⟩
  rw [hB, Option.map_some', hB0, h2] at h1
  exact absurd h1 (by decide)

/-- C2, amended: for a history of `n` matrices of size `N x N` and all
`a, b < n`, the entry `B[a][b]` is the sum over `i, j` of
`e_a[j][i] * e_b[i][j]` (the element-wise dot of the transpose of `e_a` with
`e_b`).  It is the Frobenius inner product when `e_a` is symmetric, and its
negative when `e_a` is antisymmetric. -/
theorem build_B_matrix_entry {R : Type} [CommRing R] (e : List (Mat R)) (N : Nat)
    (hsq : ∀ M ∈ e, M.n_rows = N ∧ M.n_cols = N) (a b : Nat)
    (ha : a < e.length) (hb : b < e.length) :
    ∃ B, build_B_matrix e = some B ∧
      B.elem a b = some (∑ i ∈ Finset.range N, ∑ j ∈ Finset.range N,
        (e.getD a default).elem j i * (e.getD b default).elem i j) ∧
      ((∀ i j, i < N → j < N →
          (e.getD a default).elem j i = (e.getD a default).elem i j) →
        B.elem a b = some (∑ i ∈ Finset.range N, ∑ j ∈ Finset.range N,
          (e.getD a default).elem i j * (e.getD b default).elem i j)) ∧
      ((∀ i j, i < N → j < N →
          (e.getD a default).elem j i = - (e.getD a default).elem i j) →
        B.elem a b = some (- ∑ i ∈ Finset.range N, ∑ j ∈ Finset.range N,
          (e.getD a default).elem i j * (e.getD b default).elem i j)) := by
  obtain ⟨B, hB, _, _, hel⟩ := build_B_matrix_closed e N hsq
  have main : B.elem a b = some (∑ i ∈ Finset.range N, ∑ j ∈ Finset.range N,
      (e.getD a default).elem j i * (e.getD b default).elem i j) := by
    rw [hel a b, if_neg (by omega), if_neg (by omega), if_pos ⟨ha, hb⟩]
    congr 1
    rcases Nat.le_total b a with hab | hab
    · rw [Nat.max_eq_left hab, Nat.min_eq_right hab, Finset.sum_comm]
    · rw [Nat.max_eq_right hab, Nat.min_eq_left hab]
      exact Finset.sum_congr rfl (fun i _ => Finset.sum_congr rfl (fun j _ => mul_comm _ _))
  refine ⟨B, hB, main, ?_, ?_⟩
  · intro hsym
    rw [main]
    congr 1
    apply Finset.sum_congr rfl
    intro i hi
    apply Finset.sum_congr rfl
    intro j hj
    rw [hsym i j (Finset.mem_range.mp hi) (Finset.mem_range.mp hj)]
  · intro hanti
    rw [main]
    congr 1
    rw [← Finset.sum_neg_distrib]
    apply Finset.sum_congr rfl
    intro i hi
    rw [← Finset.sum_neg_distrib]
    apply Finset.sum_congr rfl
    intro j hj
    rw [hanti i j (Finset.mem_range.mp hi) (Finset.mem_range.mp hj), neg_mul]

/-- Witness for the amended C2 on the history `[exE1, exE2]`, entry `(0,1)`. -/
theorem build_B_matrix_entry_witness :
    (∀ M ∈ [exE1, exE2], M.n_rows = 2 ∧ M.n_cols = 2) ∧
    0 < [exE1, exE2].length ∧ 1 < [exE1, exE2].length ∧
    ∃ B, build_B_matrix [exE1, exE2] = some B ∧
      B.elem 0 1 = some (∑ i ∈ Finset.range 2, ∑ j ∈ Finset.range 2,
        ([exE1, exE2].getD 0 default).elem j i *
          ([exE1, exE2].getD 1 default).elem i j) ∧
      ((∀ i j, i < 2 → j < 2 →
          ([exE1, exE2].getD 0 default).elem j i =
            ([exE1, exE2].getD 0 default).elem i j) →
        B.elem 0 1 = some (∑ i ∈ Finset.range 2, ∑ j ∈ Finset.range 2,
          ([exE1, exE2].getD 0 default).elem i j *
            ([exE1, exE2].getD 1 default).elem i j)) ∧
      ((∀ i j, i < 2 → j < 2 →
          ([exE1, exE2].getD 0 default).elem j i =
            - ([exE1, exE2].getD 0 default).elem i j) →
        B.elem 0 1 = some (- ∑ i ∈ Finset.range 2, ∑ j ∈ Finset.range 2,
          ([exE1, exE2].getD 0 default).elem i j *
            ([exE1, exE2].getD 1 default).elem i j)) :=
  ⟨by simp [exE1, exE2], by decide, by decide,
    build_B_matrix_entry [exE1, exE2] 2 (by simp [exE1, exE2]) 0 1
      (by decide) (by decide)⟩

/-- C3: with `B = build_B_matrix e` and `z = build_diis_zero_vec (n + 1)`,
every column `c` with `B * c = z` has `c[0] + ... + c[n-1] = 1`.  (Proved for
every `n`; the system has no solution when `n = 0`.) -/
theorem diis_weights_sum_one {R : Type} [CommRing R] (e : List (Mat R)) (N : Nat)
    (hsq : ∀ M ∈ e, M.n_rows = N ∧ M.n_cols = N) (c : Mat R) :
    ∃ B z, build_B_matrix e = some B ∧ build_diis_zero_vec (e.length + 1) = some z ∧
      ∀ Bc, B.vals.mul c = some Bc →
        (∀ r, r < e.length + 1 → Bc.elem r 0 = z.elem r 0) →
        ∑ i ∈ Finset.range e.length, c.elem i 0 = 1 := by
  obtain ⟨B, hB, _, hc, hel⟩ := build_B_matrix_closed e N hsq
  have hz : build_diis_zero_vec (e.length + 1) =
      some (((Mat.zeros (e.length + 1) 1).set (e.length + 1 - 1) 0 (-1)) : Mat R) := by
    simp [build_diis_zero_vec]
  refine ⟨B, _, hB, hz, ?_⟩
  intro Bc hmul heq
  have hlast := heq e.length (Nat.lt_succ_self _)
  unfold Mat.mul at hmul
  split_ifs at hmul with hconf
  simp only [Option.some.injEq] at hmul
  subst hmul
  simp only [Mat.vals, hc, Mat.set_elem, Mat.zeros, Nat.add_sub_cancel, and_self,
    if_true] at hlast
  rw [Finset.sum_range_succ] at hlast
  have hrow : ∀ k ∈ Finset.range e.length,
      (B.elem e.length k).getD 0 * c.elem k 0 = - c.elem k 0 := by
    intro k hk
    have hk1 : k < e.length := Finset.mem_range.mp hk
    rw [hel e.length k, if_neg (by omega), if_pos (Or.inl ⟨rfl, hk1⟩)]
    simp
  rw [Finset.sum_congr rfl hrow, hel e.length e.length, if_pos ⟨rfl, rfl⟩] at hlast
  simp only [Option.getD_some, zero_mul, add_zero, Finset.sum_neg_distrib] at hlast
  exact neg_inj.mp hlast

/-- Witness for C3: the history `[exE2]`, where `exC` solves the system. -/
theorem diis_weights_sum_one_witness :
    (∀ M ∈ [exE2], M.n_rows = 2 ∧ M.n_cols = 2) ∧
    (∃ B z, build_B_matrix [exE2] = some B ∧
      build_diis_zero_vec ([exE2].length + 1) = some z ∧
      ∀ Bc, B.vals.mul exC = some Bc →
        (∀ r, r < [exE2].length + 1 → Bc.elem r 0 = z.elem r 0) →
        ∑ i ∈ Finset.range [exE2].length, exC.elem i 0 = 1) ∧
    (do
      let B ← build_B_matrix [exE2]
      let z ← build_diis_zero_vec ([exE2].length + 1)
      let Bc ← B.vals.mul exC
      pure (decide (Bc.elem 0 0 = z.elem 0 0 ∧ Bc.elem 1 0 = z.elem 1 0))) =
      some true :=
  ⟨by simp [exE2], diis_weights_sum_one [exE2] 2 (by simp [exE2]) exC, by decide⟩

end bmatrix

section fock

theorem Mat.eq_of_entries {α : Type} (A B : Mat α) (h1 : A.n_rows = B.n_rows)
    (h2 : A.n_cols = B.n_cols) (h3 : ∀ r c, A.elem r c = B.elem r c) : A = B := by
  cases A
  cases B
  simp only [Mat.mk.injEq]
  exact ⟨h1, h2, funext (fun r => funext (fun c => h3 r c))⟩

/-- A loop that keeps adding `g k` to one entry adds the sum of the `g k`. -/
theorem accum_loop {R : Type} [CommRing R] (mu nu : Nat) (g : Nat → R) (n : Nat)
    (F0 : Mat R) :
    forLoop n (fun k F => F.set mu nu (F.elem mu nu + g k)) F0 =
      F0.set mu nu (F0.elem mu nu + ∑ k ∈ Finset.range n, g k) := by
  induction n with
  | zero =>
    apply Mat.eq_of_entries
    · rfl
    · rfl
    · intro r c
      by_cases hrc : r = mu ∧ c = nu
      · simp [forLoop, Mat.set_elem, hrc]
      · simp [forLoop, Mat.set_elem, hrc]
  | succ n ih =>
    simp only [forLoop, ih]
    apply Mat.eq_of_entries
    · rfl
    · rfl
    · intro r c
      by_cases hrc : r = mu ∧ c = nu
      · simp [Mat.set_elem, hrc, Finset.sum_range_succ, add_assoc]
      · simp [Mat.set_elem, hrc]

/-- The two inner loops of `build_fock` for a fixed `(mu, nu)`. -/
theorem fock_entry_loops {R : Type} [CommRing R] (mu nu n m : Nat) (h : R)
    (g : Nat → Nat → R) (F0 : Mat R) :
    forLoop n (fun lam F =>
        forLoop m (fun sig F => F.set mu nu (F.elem mu nu + g lam sig)) F)
      (F0.set mu nu h) =
      F0.set mu nu (h + ∑ lam ∈ Finset.range n, ∑ sig ∈ Finset.range m, g lam sig) := by
  have hbody : (fun lam (F : Mat R) =>
      forLoop m (fun sig F => F.set mu nu (F.elem mu nu + g lam sig)) F) =
      (fun lam F => F.set mu nu (F.elem mu nu + ∑ sig ∈ Finset.range m, g lam sig)) := by
    funext lam F
    exact accum_loop mu nu (g lam) m F
  rw [hbody, accum_loop]
  apply Mat.eq_of_entries
  · rfl
  · rfl
  · intro r c
    by_cases hrc : r = mu ∧ c = nu
    · simp [Mat.set_elem, hrc]
    · simp [Mat.set_elem, hrc]

/-- A loop over the columns that assigns `F(mu, nu) = v nu`. -/
theorem row_loop {R : Type} (mu : Nat) (v : Nat → R) (n : Nat) (F0 : Mat R) :
    let F := forLoop n (fun nu F => F.set mu nu (v nu)) F0
    F.n_rows = F0.n_rows ∧ F.n_cols = F0.n_cols ∧
      ∀ r c, F.elem r c = if r = mu ∧ c < n then v c else F0.elem r c := by
  induction n with
  | zero => simp [forLoop]
  | succ n ih =>
    obtain ⟨h1, h2, h3⟩ := ih
    refine ⟨h1, h2, ?_⟩
    intro r c
    simp only [forLoop, Mat.set_elem, h3]
    split_ifs <;> first | rfl | (exfalso; omega) | (congr 1; omega)

/-- A loop over the rows whose body fills row `mu` up to column `k`. -/
theorem rows_loop {R : Type} (k : Nat) (v : Nat → Nat → R) (n : Nat) (F0 : Mat R) :
    let F := forLoop n (fun mu F => forLoop k (fun nu F => F.set mu nu (v mu nu)) F) F0
    F.n_rows = F0.n_rows ∧ F.n_cols = F0.n_cols ∧
      ∀ r c, F.elem r c = if r < n ∧ c < k then v r c else F0.elem r c := by
  induction n with
  | zero => simp [forLoop]
  | succ n ih =>
    obtain ⟨h1, h2, h3⟩ := ih
    obtain ⟨g1, g2, g3⟩ := row_loop n (v n) k
      (forLoop n (fun mu F => forLoop k (fun nu F => F.set mu nu (v mu nu)) F) F0)
    refine ⟨g1.trans h1, g2.trans h2, ?_⟩
    intro r c
    refine (g3 r c).trans ?_
    rw [h3]
    split_ifs <;> first | rfl | (exfalso; omega) | (congr 1; omega)

/-- Closed form of `build_fock`. -/
theorem build_fock_closed {R : Type} [CommRing R] (idx4 : Nat → Nat → Nat → Nat → Nat)
    (F P H ERI : Mat R) :
    (build_fock idx4 F P H ERI).n_rows = F.n_rows ∧
    (build_fock idx4 F P H ERI).n_cols = F.n_cols ∧
    ∀ r c, (build_fock idx4 F P H ERI).elem r c =
      if r < H.n_rows ∧ c < H.n_cols then
        H.elem r c + ∑ lam ∈ Finset.range P.n_rows, ∑ sig ∈ Finset.range P.n_cols,
          P.elem lam sig *
            (2 * ERI.elem (idx4 r c lam sig) 0 - ERI.elem (idx4 r lam c sig) 0)
      else F.elem r c := by
  have hbody : (fun mu (F : Mat R) =>
      forLoop H.n_cols (fun nu F =>
        let F := F.set mu nu (H.elem mu nu)
        forLoop P.n_rows (fun lam F =>
          forLoop P.n_cols (fun sig F =>
            F.set mu nu (F.elem mu nu + P.elem lam sig *
              (2 * ERI.elem (idx4 mu nu lam sig) 0 - ERI.elem (idx4 mu lam nu sig) 0)))
            F) F) F) =
      (fun mu F => forLoop H.n_cols (fun nu F => F.set mu nu
        (H.elem mu nu + ∑ lam ∈ Finset.range P.n_rows, ∑ sig ∈ Finset.range P.n_cols,
          P.elem lam sig *
            (2 * ERI.elem (idx4 mu nu lam sig) 0 - ERI.elem (idx4 mu lam nu sig) 0))) F) := by
    funext mu F
    congr 1
    funext nu F
    exact fock_entry_loops mu nu P.n_rows P.n_cols (H.elem mu nu)
      (fun lam sig => P.elem lam sig *
        (2 * ERI.elem (idx4 mu nu lam sig) 0 - ERI.elem (idx4 mu lam nu sig) 0)) F
  unfold build_fock
  rw [hbody]
  exact rows_loop H.n_cols (fun mu nu =>
    H.elem mu nu + ∑ lam ∈ Finset.range P.n_rows, ∑ sig ∈ Finset.range P.n_cols,
      P.elem lam sig *
        (2 * ERI.elem (idx4 mu nu lam sig) 0 - ERI.elem (idx4 mu lam nu sig) 0))
    H.n_rows F

/-- C5: for `N x N` matrices `H`, `P` and any `ERI` and prior content of
`F`, every entry of the result of `build_fock` is
`H[mu][nu] + sum over lam, sig < N of
P[lam][sig] * (2 * ERI[idx4(mu,nu,lam,sig)] - ERI[idx4(mu,lam,nu,sig)])`;
the `N x N` block does not depend on the previous contents of `F`. -/
theorem build_fock_spec {R : Type} [CommRing R] (idx4 : Nat → Nat → Nat → Nat → Nat)
    (N : Nat) (F P H ERI : Mat R)
    (hH : H.n_rows = N ∧ H.n_cols = N) (hP : P.n_rows = N ∧ P.n_cols = N)
    (hF : F.n_rows = N ∧ F.n_cols = N) :
    (build_fock idx4 F P H ERI).n_rows = N ∧ (build_fock idx4 F P H ERI).n_cols = N ∧
    (∀ mu nu, mu < N → nu < N →
      (build_fock idx4 F P H ERI).elem mu nu =
        H.elem mu nu + ∑ lam ∈ Finset.range N, ∑ sig ∈ Finset.range N,
          P.elem lam sig *
            (2 * ERI.elem (idx4 mu nu lam sig) 0 - ERI.elem (idx4 mu lam nu sig) 0)) ∧
    (∀ G : Mat R, G.n_rows = N ∧ G.n_cols = N → ∀ mu nu, mu < N → nu < N →
      (build_fock idx4 G P H ERI).elem mu nu = (build_fock idx4 F P H ERI).elem mu nu) := by
  obtain ⟨h1, h2, h3⟩ := build_fock_closed idx4 F P H ERI
  refine ⟨h1.trans hF.1, h2.trans hF.2, ?_, ?_⟩
  · intro mu nu hmu hnu
    rw [h3, if_pos (by rw [hH.1, hH.2]; exact ⟨hmu, hnu⟩), hP.1, hP.2]
  · intro G _ mu nu hmu hnu
    obtain ⟨_, _, g3⟩ := build_fock_closed idx4 G P H ERI
    rw [h3, g3, if_pos (by rw [hH.1, hH.2]; exact ⟨hmu, hnu⟩),
      if_pos (by rw [hH.1, hH.2]; exact ⟨hmu, hnu⟩)]

/-- Witness for C5 on `2 x 2` inputs. -/
theorem build_fock_spec_witness :
    (exH.n_rows = 2 ∧ exH.n_cols = 2) ∧ (exP.n_rows = 2 ∧ exP.n_cols = 2) ∧
    (exF.n_rows = 2 ∧ exF.n_cols = 2) ∧
    (build_fock exIdx4 exF exP exH exERI).elem 1 0 = 219 ∧
    ∀ mu nu, mu < 2 → nu < 2 →
      (build_fock exIdx4 exF exP exH exERI).elem mu nu =
        exH.elem mu nu + ∑ lam ∈ Finset.range 2, ∑ sig ∈ Finset.range 2,
          exP.elem lam sig *
            (2 * exERI.elem (exIdx4 mu nu lam sig) 0 - exERI.elem (exIdx4 mu lam nu sig) 0) :=
  ⟨⟨rfl, rfl⟩, ⟨rfl, rfl⟩, ⟨rfl, rfl⟩, by decide,
    (build_fock_spec exIdx4 2 exF exP exH exERI ⟨rfl, rfl⟩ ⟨rfl, rfl⟩ ⟨rfl, rfl⟩).2.2.1⟩

end fock

section driver_theorems

variable {M K : Type} [LinearOrderedField K]

theorem scf_step_iter_of_not_converged (k : Kernels M K) (Vnn : K) (s : SCFState M K)
    (h : (scf_step k Vnn s).2 = false) : (scf_step k Vnn s).1.iter = s.iter + 1 := by
  unfold scf_step at h ⊢
  simp only at h ⊢
  split_ifs at h ⊢
  all_goals simp_all

theorem scf_loop_of_converged (k : Kernels M K) (Vnn : K) (s : SCFState M K)
    (hlt : s.iter < max_iter) (h : (scf_step k Vnn s).2 = true) :
    scf_loop k Vnn s = ((scf_step k Vnn s).1, true, 1) := by
  rw [scf_loop, if_pos hlt, if_pos h]

theorem scf_loop_of_not_converged (k : Kernels M K) (Vnn : K) (s : SCFState M K)
    (hlt : s.iter < max_iter) (h : (scf_step k Vnn s).2 = false) :
    scf_loop k Vnn s =
      ((scf_loop k Vnn (scf_step k Vnn s).1).1, (scf_loop k Vnn (scf_step k Vnn s).1).2.1,
        (scf_loop k Vnn (scf_step k Vnn s).1).2.2 + 1) := by
  rw [scf_loop, if_pos hlt, if_neg (by simp [h])]

theorem scf_loop_of_exhausted (k : Kernels M K) (Vnn : K) (s : SCFState M K)
    (hge : ¬ s.iter < max_iter) : scf_loop k Vnn s = (s, false, 0) := by
  rw [scf_loop, if_neg hge]

theorem scf_step_history (k : Kernels M K) (Vnn : K) (s : SCFState M K) (h : 0 < s.iter) :
    ((scf_step k Vnn s).1.diis_error_vec, (scf_step k Vnn s).1.diis_fock_vec) =
      diis_push (s.diis_error_vec, s.diis_fock_vec)
        (k.error_matrix (k.fock s.F s.D) s.D, k.fock s.F s.D) := by
  have hd : (diis_stage k s (k.fock s.F s.D)).2 =
      diis_push (s.diis_error_vec, s.diis_fock_vec)
        (k.error_matrix (k.fock s.F s.D) s.D, k.fock s.F s.D) := by
    unfold diis_stage
    simp only [gt_iff_lt, h, if_true]
    split_ifs <;> rfl
  rw [← hd]
  unfold scf_step
  simp only
  split_ifs <;> rfl

theorem diis_push_eq {M : Type} (ev fv : List M) (p : M × M) :
    diis_push (ev, fv) p =
      (p.1 :: (if ev.length = max_diis_length ∨ max_diis_length < ev.length
          then ev.dropLast else ev),
        p.2 :: (if ev.length = max_diis_length ∨ max_diis_length < ev.length
          then fv.dropLast else fv)) := by
  unfold diis_push
  by_cases hc : ev.length ≥ max_diis_length
  · have hc2 : ev.length = max_diis_length ∨ max_diis_length < ev.length := by omega
    simp only [hc, hc2, if_true]
  · have hc2 : ¬ (ev.length = max_diis_length ∨ max_diis_length < ev.length) := by omega
    simp only [hc, hc2, if_false]

/-- Pushing any sequence of pairs into an empty history leaves the
`max_diis_length` most recent pairs, most recent first. -/
theorem diis_push_foldl {M : Type} (ps : List (M × M)) :
    ps.foldl diis_push ([], []) =
      ((ps.reverse.take max_diis_length).map Prod.fst,
        (ps.reverse.take max_diis_length).map Prod.snd) := by
  induction ps using List.reverseRecOn with
  | nil => rfl
  | append_singleton ps p ih =>
    rw [List.foldl_append, ih, List.reverse_append]
    simp only [List.foldl_cons, List.foldl_nil, List.reverse_cons, List.reverse_nil,
      List.nil_append, List.singleton_append]
    rw [diis_push_eq]
    simp only [List.length_map, List.length_take, List.length_reverse, max_diis_length]
    by_cases hlen : 6 ≤ ps.length
    · have h6 : min 6 ps.length = 6 := Nat.min_eq_left hlen
      simp only [h6, true_or, if_true, List.take_succ_cons, List.map_cons,
        List.dropLast_eq_take, List.length_map, List.length_take, List.length_reverse,
        ← List.map_take, List.take_take]
      rfl
    · have h6 : min 6 ps.length = ps.length := Nat.min_eq_right (by omega)
      have hne : ¬ (ps.length = 6 ∨ 6 < ps.length) := by omega
      have ht : ∀ m, ps.length ≤ m → List.take m ps.reverse = ps.reverse := by
        intro m hm
        exact List.take_of_length_le (by rw [List.length_reverse]; exact hm)
      simp only [h6, hne, if_false, List.take_succ_cons, List.map_cons,
        ht 6 (by omega), ht 5 (by omega)]

theorem reverse_take_of_length_succ {α : Type} (l : List α) (n : Nat)
    (h : l.length = n + 1) : l.reverse.take n = l.tail.reverse := by
  cases l with
  | nil => simp at h
  | cons a t =>
    have ht : t.reverse.length = n := by
      rw [List.length_reverse]
      simpa using h
    rw [List.reverse_cons, List.tail_cons, List.take_append_of_le_length (by omega),
      List.take_of_length_le (by omega)]

/-- One pass keeps the two histories of equal length at most
`max_diis_length`. -/
theorem scf_step_history_inv (k : Kernels M K) (Vnn : K) (s : SCFState M K)
    (hiter : 0 < s.iter) (heq : s.diis_error_vec.length = s.diis_fock_vec.length)
    (hle : s.diis_error_vec.length ≤ max_diis_length) :
    (scf_step k Vnn s).1.diis_error_vec.length = (scf_step k Vnn s).1.diis_fock_vec.length ∧
    (scf_step k Vnn s).1.diis_error_vec.length ≤ max_diis_length := by
  have hh := scf_step_history k Vnn s hiter
  rw [diis_push_eq, Prod.mk.injEq] at hh
  obtain ⟨h1, h2⟩ := hh
  rw [h1, h2]
  unfold max_diis_length at hle ⊢
  split_ifs with hc
  · simp only [List.length_cons, List.length_dropLast]
    omega
  · simp only [List.length_cons]
    omega

/-- The whole loop keeps the two histories of equal length at most
`max_diis_length`. -/
theorem scf_loop_history_inv (k : Kernels M K) (Vnn : K) (n : Nat) :
    ∀ s : SCFState M K, (max_iter - s.iter).toNat = n → 0 < s.iter →
      s.diis_error_vec.length = s.diis_fock_vec.length →
      s.diis_error_vec.length ≤ max_diis_length →
      (scf_loop k Vnn s).1.diis_error_vec.length =
        (scf_loop k Vnn s).1.diis_fock_vec.length ∧
      (scf_loop k Vnn s).1.diis_error_vec.length ≤ max_diis_length := by
  induction n with
  | zero =>
    intro s hn _ heq hle
    have hge : ¬ s.iter < max_iter := by omega
    rw [scf_loop_of_exhausted k Vnn s hge]
    exact ⟨heq, hle⟩
  | succ n ih =>
    intro s hn hpos heq hle
    have hlt : s.iter < max_iter := by omega
    have hstep := scf_step_history_inv k Vnn s hpos heq hle
    cases hb : (scf_step k Vnn s).2 with
    | true =>
      rw [scf_loop_of_converged k Vnn s hlt hb]
      exact hstep
    | false =>
      have hit := scf_step_iter_of_not_converged k Vnn s hb
      rw [scf_loop_of_not_converged k Vnn s hlt hb]
      exact ih (scf_step k Vnn s).1 (by rw [hit]; omega) (by rw [hit]; omega)
        hstep.1 hstep.2

/-- C4: the DIIS push of one pass of the driver, with capacity
`max_diis_length = 6`.  If both histories have length `n <= 6` before the
pass, then after it both have length `min (n + 1) 6`, the new (error, Fock)
pair is at index 0, the stored pairs follow in their old order, and the only
one removed (when `n = 6`) is the last.  Pushing any sequence of pairs into
an empty history leaves the 6 most recent, most recent first; for 7 pairs
these are all but the first one pushed.  On exit from the loop entered with
empty histories, the two histories have equal length at most 6. -/
theorem diis_history_bounded (k : Kernels M K) (Vnn : K) (s : SCFState M K) (n : Nat)
    (hiter : 0 < s.iter) (he : s.diis_error_vec.length = n)
    (hf : s.diis_fock_vec.length = n) (hn : n ≤ max_diis_length) :
    max_diis_length = 6 ∧
    (scf_step k Vnn s).1.diis_error_vec.length = min (n + 1) max_diis_length ∧
    (scf_step k Vnn s).1.diis_fock_vec.length = min (n + 1) max_diis_length ∧
    (scf_step k Vnn s).1.diis_error_vec =
      k.error_matrix (k.fock s.F s.D) s.D ::
        (if n = max_diis_length then s.diis_error_vec.dropLast else s.diis_error_vec) ∧
    (scf_step k Vnn s).1.diis_fock_vec =
      k.fock s.F s.D ::
        (if n = max_diis_length then s.diis_fock_vec.dropLast else s.diis_fock_vec) ∧
    (∀ ps : List (M × M), ps.foldl diis_push ([], []) =
      ((ps.reverse.take max_diis_length).map Prod.fst,
        (ps.reverse.take max_diis_length).map Prod.snd)) ∧
    (∀ ps : List (M × M), ps.length = max_diis_length + 1 →
      ps.foldl diis_push ([], []) =
        (ps.tail.reverse.map Prod.fst, ps.tail.reverse.map Prod.snd)) ∧
    (∀ (F F_prime D D_old C : M) (E_elec_new E_elec_old E_total rmsd_D : K),
      (scf_loop k Vnn (scf_init F F_prime D D_old C E_elec_new E_elec_old E_total
          rmsd_D)).1.diis_error_vec.length =
        (scf_loop k Vnn (scf_init F F_prime D D_old C E_elec_new E_elec_old E_total
          rmsd_D)).1.diis_fock_vec.length ∧
      (scf_loop k Vnn (scf_init F F_prime D D_old C E_elec_new E_elec_old E_total
          rmsd_D)).1.diis_error_vec.length ≤ max_diis_length) := by
  have hh := scf_step_history k Vnn s hiter
  rw [diis_push_eq, Prod.mk.injEq] at hh
  obtain ⟨h1, h2⟩ := hh
  have hcond : (s.diis_error_vec.length = max_diis_length ∨
      max_diis_length < s.diis_error_vec.length) ↔ n = max_diis_length := by
    rw [he]
    constructor
    · rintro (h | h)
      · exact h
      · omega
    · exact fun h => Or.inl h
  simp only [hcond] at h1 h2
  refine ⟨rfl, ?_, ?_, h1, h2, diis_push_foldl, ?_, ?_⟩
  · rw [h1]
    unfold max_diis_length at hn ⊢
    split_ifs with hc
    · simp only [List.length_cons, List.length_dropLast, he]
      omega
    · simp only [List.length_cons, he]
      omega
  · rw [h2]
    unfold max_diis_length at hn ⊢
    split_ifs with hc
    · simp only [List.length_cons, List.length_dropLast, hf]
      omega
    · simp only [List.length_cons, hf]
      omega
  · intro ps hps
    rw [diis_push_foldl, reverse_take_of_length_succ ps max_diis_length hps]
  · intro F F_prime D D_old C E_elec_new E_elec_old E_total rmsd_D
    exact scf_loop_history_inv k Vnn 1023 _
      (by show ((1024 : Int) - (0 + 1)).toNat = 1023; decide)
      (by show (0 : Int) < 0 + 1; decide) rfl (Nat.zero_le _)

/-- Witness for C4: a pass over a state whose history is full. -/
theorem diis_history_bounded_witness :
    0 < exState.iter ∧ exState.diis_error_vec.length = 6 ∧
    exState.diis_fock_vec.length = 6 ∧ 6 ≤ max_diis_length ∧
    (scf_step exKernels 0 exState).1.diis_error_vec.length = min (6 + 1) max_diis_length ∧
    (scf_step exKernels 0 exState).1.diis_fock_vec.length = min (6 + 1) max_diis_length ∧
    (scf_step exKernels 0 exState).1.diis_error_vec =
      exKernels.error_matrix (exKernels.fock exState.F exState.D) exState.D ::
        (if 6 = max_diis_length then exState.diis_error_vec.dropLast
          else exState.diis_error_vec) :=
  ⟨by decide, rfl, rfl, by decide,
    (diis_history_bounded exKernels 0 exState 6 (by decide) rfl rfl (by decide)).2.1,
    (diis_history_bounded exKernels 0 exState 6 (by decide) rfl rfl (by decide)).2.2.1,
    (diis_history_bounded exKernels 0 exState 6 (by decide) rfl rfl (by decide)).2.2.2.1⟩

end driver_theorems

section density

/-- C7: for `N x N` matrices `C`, `S` and `1 <= NOcc <= N`, `make_density`
returns `D` with `D[i][j] = sum over k < NOcc of C[i][k] * C[j][k]`, and
`trace(D * S) = NOcc` whenever the first `NOcc` columns of `C` are
`S`-orthonormal. -/
theorem make_density_trace {R : Type} [CommRing R] (N : Nat) (C S : Mat R) (NOcc : Nat)
    (hC : C.n_rows = N ∧ C.n_cols = N) (hS : S.n_rows = N ∧ S.n_cols = N)
    (h1 : 1 ≤ NOcc) (h2 : NOcc ≤ N)
    (horth : ∀ k l, k < NOcc → l < NOcc →
      ∑ i ∈ Finset.range N, ∑ j ∈ Finset.range N,
        C.elem i k * S.elem i j * C.elem j l = if k = l then 1 else 0) :
    ∃ D DS, make_density C (NOcc : Int) = some D ∧ D.n_rows = N ∧ D.n_cols = N ∧
      (∀ i j, D.elem i j = ∑ k ∈ Finset.range NOcc, C.elem i k * C.elem j k) ∧
      D.mul S = some DS ∧ DS.trace = (NOcc : R) := by
  have hnn : (0 : Int) ≤ (NOcc : Int) - 1 := by omega
  have htn : ((NOcc : Int) - 1).toNat = NOcc - 1 := by omega
  have hcols : C.cols 0 (NOcc - 1) =
      some ⟨C.n_rows, NOcc - 1 - 0 + 1, fun i j => C.elem i (0 + j)⟩ := by
    unfold Mat.cols
    rw [if_pos ⟨Nat.zero_le _, by rw [hC.2]; omega⟩]
  have hw : NOcc - 1 - 0 + 1 = NOcc := by omega
  have hD : make_density C (NOcc : Int) =
      some ⟨N, N, fun i j => ∑ k ∈ Finset.range NOcc, C.elem i k * C.elem j k⟩ := by
    unfold make_density
    rw [if_pos hnn, htn, hcols]
    simp only [Option.bind_eq_bind, Option.some_bind, Mat.mul, Mat.t, if_true, hw, hC.1,
      Nat.zero_add]
  refine ⟨_, ⟨N, N, fun i j => ∑ k ∈ Finset.range N,
    (∑ l ∈ Finset.range NOcc, C.elem i l * C.elem k l) * S.elem k j⟩, hD, rfl, rfl,
    fun _ _ => rfl, ?_, ?_⟩
  · simp only [Mat.mul, hS.1, hS.2, if_true]
  · simp only [Mat.trace, Nat.min_self]
    calc ∑ i ∈ Finset.range N, ∑ j ∈ Finset.range N,
          (∑ k ∈ Finset.range NOcc, C.elem i k * C.elem j k) * S.elem j i
        = ∑ i ∈ Finset.range N, ∑ j ∈ Finset.range N, ∑ k ∈ Finset.range NOcc,
            C.elem j k * S.elem j i * C.elem i k := by
          apply Finset.sum_congr rfl
          intro i _
          apply Finset.sum_congr rfl
          intro j _
          rw [Finset.sum_mul]
          apply Finset.sum_congr rfl
          intro k _
          ring
      _ = ∑ k ∈ Finset.range NOcc, ∑ j ∈ Finset.range N, ∑ i ∈ Finset.range N,
            C.elem j k * S.elem j i * C.elem i k := by
          rw [Finset.sum_comm]
          rw [Finset.sum_congr rfl (fun j _ => Finset.sum_comm)]
          rw [Finset.sum_comm]
      _ = ∑ k ∈ Finset.range NOcc, (1 : R) := by
          apply Finset.sum_congr rfl
          intro k hk
          rw [horth k k (Finset.mem_range.mp hk) (Finset.mem_range.mp hk), if_pos rfl]
      _ = (NOcc : R) := by simp

/-- Witness for C7: one occupied column of the `2 x 2` identity. -/
theorem make_density_trace_witness :
    (exC2.n_rows = 2 ∧ exC2.n_cols = 2) ∧ (exS2.n_rows = 2 ∧ exS2.n_cols = 2) ∧
    1 ≤ 1 ∧ 1 ≤ 2 ∧
    (∀ k l, k < 1 → l < 1 →
      ∑ i ∈ Finset.range 2, ∑ j ∈ Finset.range 2,
        exC2.elem i k * exS2.elem i j * exC2.elem j l = if k = l then 1 else 0) ∧
    ∃ D DS, make_density exC2 ((1 : Nat) : Int) = some D ∧ D.n_rows = 2 ∧ D.n_cols = 2 ∧
      (∀ i j, D.elem i j = ∑ k ∈ Finset.range 1, exC2.elem i k * exC2.elem j k) ∧
      D.mul exS2 = some DS ∧ DS.trace = ((1 : Nat) : ℤ) := by
  have horth : ∀ k l, k < 1 → l < 1 →
      ∑ i ∈ Finset.range 2, ∑ j ∈ Finset.range 2,
        exC2.elem i k * exS2.elem i j * exC2.elem j l = if k = l then 1 else 0 := by
    intro k l hk hl
    have hk0 : k = 0 := by omega
    have hl0 : l = 0 := by omega
    subst hk0
    subst hl0
    decide
  exact ⟨⟨rfl, rfl⟩, ⟨rfl, rfl⟩, Nat.le_refl 1, by decide, horth,
    make_density_trace 2 exC2 exS2 1 ⟨rfl, rfl⟩ ⟨rfl, rfl⟩ (Nat.le_refl 1) (by decide) horth⟩

end density

section orthogonalizer

theorem toMatrix_mul {R : Type} [CommRing R] (m n p : Nat) (A B : Mat R)
    (hA : A.n_cols = n) (hB : B.n_rows = n) :
    ∃ P, A.mul B = some P ∧ P.n_rows = A.n_rows ∧ P.n_cols = B.n_cols ∧
      Mat.toMatrix m p P = Mat.toMatrix m n A * Mat.toMatrix n p B := by
  refine ⟨⟨A.n_rows, B.n_cols,
    fun i j => ∑ k ∈ Finset.range A.n_cols, A.elem i k * B.elem k j⟩, ?_, rfl, rfl, ?_⟩
  · simp [Mat.mul, hA, hB]
  · funext i j
    simp only [Mat.toMatrix, Matrix.mul_apply, hA]
    exact (Fin.sum_univ_eq_sum_range (fun k => A.elem i k * B.elem k j) n).symm

theorem toMatrix_t {R : Type} [CommRing R] (m n : Nat) (A : Mat R) :
    Mat.toMatrix m n A.t = (Mat.toMatrix n m A).transpose := rfl

/-- The algebra behind the orthogonalizer, over finite index types: with
`Lᵀ L = 1` and `d i * lam i * d i = 1`, the matrix `X = L diag(d) Lᵀ`
satisfies `Xᵀ (L diag(lam) Lᵀ) X = 1`. -/
theorem orthogonalizer_core {R : Type} [CommRing R] (n : Nat)
    (L : Matrix (Fin n) (Fin n) R) (lam d : Fin n → R)
    (hL : L.transpose * L = 1) (hd : ∀ i, d i * lam i * d i = 1) :
    (L * Matrix.diagonal d * L.transpose).transpose *
        (L * Matrix.diagonal lam * L.transpose) *
        (L * Matrix.diagonal d * L.transpose) = 1 := by
  have hL2 : L * L.transpose = 1 := Matrix.mul_eq_one_comm.mp hL
  have hcancel : ∀ Y : Matrix (Fin n) (Fin n) R, L.transpose * (L * Y) = Y := by
    intro Y
    rw [← Matrix.mul_assoc, hL, Matrix.one_mul]
  have hdiag : Matrix.diagonal d * (Matrix.diagonal lam * Matrix.diagonal d) =
      (1 : Matrix (Fin n) (Fin n) R) := by
    have hfun : (fun i => d i * (lam i * d i)) = fun _ => (1 : R) := by
      funext i
      rw [← mul_assoc]
      exact hd i
    rw [Matrix.diagonal_mul_diagonal, Matrix.diagonal_mul_diagonal, hfun,
      Matrix.diagonal_one]
  have hdcancel : ∀ Y : Matrix (Fin n) (Fin n) R,
      Matrix.diagonal d * (Matrix.diagonal lam * (Matrix.diagonal d * Y)) = Y := by
    intro Y
    rw [← Matrix.mul_assoc (Matrix.diagonal lam), ← Matrix.mul_assoc, hdiag, Matrix.one_mul]
  simp only [Matrix.transpose_mul, Matrix.transpose_transpose, Matrix.diagonal_transpose,
    Matrix.mul_assoc, hcancel, hdcancel]
  exact hL2

/-- C6: in exact real arithmetic, let `eig_sym` return for `S` an orthogonal
`L` and eigenvalues `lam > 0` with `S = L diag(lam) Lᵀ`, and let `inv` return
an inverse of `diagmat(lam)`.  Then the driver's
`X = L * sqrt(inv(diagmat(lam))) * L.t()` is computed, and
`X.t() * S * X` is the identity. -/
theorem Symm_Orthog_orthogonalizes (N : Nat) (S L lam Li : Mat ℝ)
    (eig_sym : Mat ℝ → Mat ℝ × Mat ℝ) (inv : Mat ℝ → Option (Mat ℝ))
    (heig : eig_sym S = (lam, L))
    (hS : S.n_rows = N ∧ S.n_cols = N) (hL : L.n_rows = N ∧ L.n_cols = N)
    (horth : ∀ i j, i < N → j < N →
      ∑ k ∈ Finset.range N, L.elem k i * L.elem k j = if i = j then 1 else 0)
    (hdec : ∀ i j, i < N → j < N →
      S.elem i j = ∑ k ∈ Finset.range N, L.elem i k * lam.elem k 0 * L.elem j k)
    (hpos : ∀ i, i < N → 0 < lam.elem i 0)
    (hinv : inv (Mat.diagmat lam) = some Li) (hLi : Li.n_rows = N ∧ Li.n_cols = N)
    (hLiinv : ∀ i j, i < N → j < N →
      ∑ k ∈ Finset.range N, (Mat.diagmat lam).elem i k * Li.elem k j =
        if i = j then 1 else 0) :
    ∃ X XtS XtSX, Symm_Orthog eig_sym inv Real.sqrt S = some X ∧
      X.n_rows = N ∧ X.n_cols = N ∧
      X.t.mul S = some XtS ∧ XtS.mul X = some XtSX ∧
      XtSX.n_rows = N ∧ XtSX.n_cols = N ∧
      ∀ i j, i < N → j < N → XtSX.elem i j = if i = j then 1 else 0 := by
  obtain ⟨T, hT, hTr, hTc, hTm⟩ :=
    toMatrix_mul N N N L (Mat.map Real.sqrt Li) hL.2 hLi.1
  obtain ⟨X, hX, hXr, hXc, hXm⟩ :=
    toMatrix_mul N N N T L.t (hTc.trans hLi.2) hL.2
  have hXrows : X.n_rows = N := hXr.trans (hTr.trans hL.1)
  have hXcols : X.n_cols = N := hXc.trans hL.1
  obtain ⟨XtS, hXtS, hXtSr, hXtSc, hXtSm⟩ := toMatrix_mul N N N X.t S hXrows hS.1
  obtain ⟨XtSX, hXtSX, hXtSXr, hXtSXc, hXtSXm⟩ :=
    toMatrix_mul N N N XtS X (hXtSc.trans hS.2) hXrows
  have hrun : Symm_Orthog eig_sym inv Real.sqrt S = some X := by
    simp only [Symm_Orthog, heig, hinv, Option.bind_eq_bind, Option.some_bind, hT, hX]
  refine ⟨X, XtS, XtSX, hrun, hXrows, hXcols, hXtS, hXtSX,
    hXtSXr.trans (hXtSr.trans hXcols), hXtSXc.trans hXcols, ?_⟩
  -- entries of the inverse returned by `inv`
  have hLiE : ∀ i j, i < N → j < N →
      lam.elem i 0 * Li.elem i j = if i = j then 1 else 0 := by
    intro i j hi hj
    have h := hLiinv i j hi hj
    simp only [Mat.diagmat, ite_mul, zero_mul, Finset.sum_ite_eq, Finset.mem_range, hi,
      if_true] at h
    exact h
  have hDm : Mat.toMatrix N N (Mat.map Real.sqrt Li) =
      Matrix.diagonal (fun i : Fin N => Real.sqrt (Li.elem i i)) := by
    funext i j
    by_cases hij : i = j
    · subst hij
      simp [Mat.toMatrix, Mat.map]
    · have hv : (i : Nat) ≠ (j : Nat) := fun h => hij (Fin.ext h)
      have h0 := hLiE i j i.isLt j.isLt
      rw [if_neg hv] at h0
      have hz : Li.elem i j = 0 := by
        rcases mul_eq_zero.mp h0 with h | h
        · exact absurd h (ne_of_gt (hpos i i.isLt))
        · exact h
      simp [Mat.toMatrix, Mat.map, Matrix.diagonal_apply_ne _ hij, hz]
  have hd : ∀ i : Fin N, Real.sqrt (Li.elem i i) * lam.elem i 0 * Real.sqrt (Li.elem i i) = 1 := by
    intro i
    have h1 := hLiE i i i.isLt i.isLt
    rw [if_pos rfl] at h1
    have hp := hpos i i.isLt
    have hnn : 0 ≤ Li.elem i i := by
      by_contra hneg
      have : lam.elem i 0 * Li.elem i i < 0 := mul_neg_of_pos_of_neg hp (lt_of_not_ge hneg)
      rw [h1] at this
      exact absurd this (by norm_num)
    calc Real.sqrt (Li.elem i i) * lam.elem i 0 * Real.sqrt (Li.elem i i)
        = lam.elem i 0 * (Real.sqrt (Li.elem i i) * Real.sqrt (Li.elem i i)) := by ring
      _ = 1 := by rw [Real.mul_self_sqrt hnn, h1]
  have hLtL : (Mat.toMatrix N N L).transpose * Mat.toMatrix N N L = 1 := by
    funext i j
    simp only [Matrix.mul_apply, Matrix.transpose_apply, Mat.toMatrix, Matrix.one_apply]
    rw [Fin.sum_univ_eq_sum_range (fun k => L.elem k i * L.elem k j) N,
      horth i j i.isLt j.isLt]
    simp only [Fin.ext_iff]
  have hSm : Mat.toMatrix N N S =
      Mat.toMatrix N N L * Matrix.diagonal (fun i : Fin N => lam.elem i 0) *
        (Mat.toMatrix N N L).transpose := by
    funext i j
    rw [Matrix.mul_apply]
    simp only [Matrix.mul_diagonal, Matrix.transpose_apply, Mat.toMatrix]
    rw [Fin.sum_univ_eq_sum_range (fun k => L.elem i k * lam.elem k 0 * L.elem j k) N]
    exact hdec i j i.isLt j.isLt
  have hfinal : Mat.toMatrix N N XtSX = 1 := by
    rw [hXtSXm, hXtSm, toMatrix_t, hXm, hTm, toMatrix_t, hDm, hSm]
    exact orthogonalizer_core N _ _ _ hLtL hd
  intro i j hi hj
  have h := congrFun (congrFun hfinal ⟨i, hi⟩) ⟨j, hj⟩
  simp only [Mat.toMatrix, Matrix.one_apply, Fin.mk.injEq] at h
  exact h

/-- Witness for C6: `S = diag(9, 4)` with the exchange matrix as
eigenvectors and eigenvalues `(4, 9)`. -/
theorem Symm_Orthog_orthogonalizes_witness :
    ((exS ℝ).n_rows = 2 ∧ (exS ℝ).n_cols = 2) ∧ ((exL ℝ).n_rows = 2 ∧ (exL ℝ).n_cols = 2) ∧
    (∀ i, i < 2 → 0 < (exLam ℝ).elem i 0) ∧
    ∃ X XtS XtSX,
      Symm_Orthog (fun _ => (exLam ℝ, exL ℝ)) (fun _ => some (exLamInv ℝ)) Real.sqrt (exS ℝ) =
        some X ∧
      X.n_rows = 2 ∧ X.n_cols = 2 ∧
      X.t.mul (exS ℝ) = some XtS ∧ XtS.mul X = some XtSX ∧
      XtSX.n_rows = 2 ∧ XtSX.n_cols = 2 ∧
      ∀ i j, i < 2 → j < 2 → XtSX.elem i j = if i = j then 1 else 0 := by
  have hpos : ∀ i, i < 2 → 0 < (exLam ℝ).elem i 0 := by
    intro i hi
    interval_cases i <;> simp [exLam]
  refine ⟨⟨rfl, rfl⟩, ⟨rfl, rfl⟩, hpos, ?_⟩
  refine Symm_Orthog_orthogonalizes 2 (exS ℝ) (exL ℝ) (exLam ℝ) (exLamInv ℝ)
    (fun _ => (exLam ℝ, exL ℝ)) (fun _ => some (exLamInv ℝ)) rfl ⟨rfl, rfl⟩ ⟨rfl, rfl⟩
    ?_ ?_ hpos rfl ⟨rfl, rfl⟩ ?_
  · intro i j hi hj
    interval_cases i <;> interval_cases j <;> simp [exL, Finset.sum_range_succ]
  · intro i j hi hj
    interval_cases i <;> interval_cases j <;>
      simp [exL, exS, exLam, Finset.sum_range_succ]
  · intro i j hi hj
    interval_cases i <;> interval_cases j <;>
      simp [Mat.diagmat, exLam, exLamInv, Finset.sum_range_succ]

end orthogonalizer

section error_matrix

/-- The error matrix `F*D*S - S*D*F` of symmetric `N x N` matrices is
antisymmetric: these are the matrices the driver stores in its error
history. -/
theorem build_error_matrix_antisymmetric {R : Type} [CommRing R] (N : Nat) (F D S : Mat R)
    (hF : F.n_rows = N ∧ F.n_cols = N) (hD : D.n_rows = N ∧ D.n_cols = N)
    (hS : S.n_rows = N ∧ S.n_cols = N)
    (symF : ∀ i j, i < N → j < N → F.elem i j = F.elem j i)
    (symD : ∀ i j, i < N → j < N → D.elem i j = D.elem j i)
    (symS : ∀ i j, i < N → j < N → S.elem i j = S.elem j i) :
    ∃ E, build_error_matrix F D S = some E ∧ E.n_rows = N ∧ E.n_cols = N ∧
      ∀ i j, i < N → j < N → E.elem j i = - E.elem i j := by
  obtain ⟨FD, hFD, hFDr, hFDc, hFDm⟩ := toMatrix_mul N N N F D hF.2 hD.1
  obtain ⟨FDS, hFDS, hFDSr, hFDSc, hFDSm⟩ := toMatrix_mul N N N FD S (hFDc.trans hD.2) hS.1
  obtain ⟨SD, hSD, hSDr, hSDc, hSDm⟩ := toMatrix_mul N N N S D hS.2 hD.1
  obtain ⟨SDF, hSDF, hSDFr, hSDFc, hSDFm⟩ := toMatrix_mul N N N SD F (hSDc.trans hD.2) hF.1
  have hr : FDS.n_rows = SDF.n_rows := by
    rw [hFDSr, hFDr, hF.1, hSDFr, hSDr, hS.1]
  have hc : FDS.n_cols = SDF.n_cols := by
    rw [hFDSc, hS.2, hSDFc, hF.2]
  have hrun : build_error_matrix F D S =
      some ⟨FDS.n_rows, FDS.n_cols, fun i j => FDS.elem i j - SDF.elem i j⟩ := by
    simp only [build_error_matrix, hFD, hFDS, hSD, hSDF, Option.bind_eq_bind,
      Option.some_bind, Mat.sub, hr, hc, and_self, if_true]
  have tF : (Mat.toMatrix N N F).transpose = Mat.toMatrix N N F := by
    funext i j
    exact symF j i j.isLt i.isLt
  have tD : (Mat.toMatrix N N D).transpose = Mat.toMatrix N N D := by
    funext i j
    exact symD j i j.isLt i.isLt
  have tS : (Mat.toMatrix N N S).transpose = Mat.toMatrix N N S := by
    funext i j
    exact symS j i j.isLt i.isLt
  have htr : (Mat.toMatrix N N FDS).transpose = Mat.toMatrix N N SDF := by
    rw [hFDSm, hFDm, hSDFm, hSDm, Matrix.transpose_mul, Matrix.transpose_mul, tF, tD, tS,
      Matrix.mul_assoc]
  refine ⟨_, hrun, hFDSr.trans (hFDr.trans hF.1), hFDSc.trans hS.2, ?_⟩
  intro i j hi hj
  have h1 : FDS.elem j i = SDF.elem i j :=
    congrFun (congrFun htr ⟨i, hi⟩) ⟨j, hj⟩
  have h2 : FDS.elem i j = SDF.elem j i :=
    congrFun (congrFun htr ⟨j, hj⟩) ⟨i, hi⟩
  show FDS.elem j i - SDF.elem j i = - (FDS.elem i j - SDF.elem i j)
  rw [h1, h2]
  ring

end error_matrix

section geometry

theorem sin_ninety_ne_one : Real.sin 90 ≠ 1 := by
  intro h
  obtain ⟨k, hk⟩ := Real.sin_eq_one_iff.mp h
  have h1 := Real.pi_gt_d2
  have h2 := Real.pi_lt_d2
  rcases le_or_lt k 14 with hle | hgt
  · have hk1 : (k : ℝ) ≤ 14 := by exact_mod_cast hle
    have : (k : ℝ) * (2 * Real.pi) ≤ 14 * (2 * Real.pi) :=
      mul_le_mul_of_nonneg_right hk1 (by positivity)
    linarith
  · have hk1 : (15 : ℝ) ≤ k := by exact_mod_cast hgt
    have : 15 * (2 * Real.pi) ≤ (k : ℝ) * (2 * Real.pi) :=
      mul_le_mul_of_nonneg_right hk1 (by positivity)
    linarith

theorem sqrt_twenty_five : Real.sqrt 25 = 5 := by
  rw [show (25 : ℝ) = 5 ^ 2 by norm_num]
  exact Real.sqrt_sq (by norm_num)

theorem exMol_unit_kj (c : Nat) :
    Molecule.calc_unit ⟨Real.sqrt, Real.sin, Real.arcsin, Real.arccos⟩ (exMol ℝ) 2 1 c =
      if c = 0 then 1 else 0 := by
  simp only [Molecule.calc_unit, Molecule.bond, Molecule.calc_bond, exMol]
  norm_num

theorem exMol_unit_kl (c : Nat) :
    Molecule.calc_unit ⟨Real.sqrt, Real.sin, Real.arcsin, Real.arccos⟩ (exMol ℝ) 2 3 c =
      if c = 1 then 1 else 0 := by
  simp only [Molecule.calc_unit, Molecule.bond, Molecule.calc_bond, exMol]
  norm_num

theorem exMol_unit_ki (c : Nat) :
    Molecule.calc_unit ⟨Real.sqrt, Real.sin, Real.arcsin, Real.arccos⟩ (exMol ℝ) 2 0 c =
      if c = 0 then 3 / 5 else if c = 2 then 4 / 5 else 0 := by
  simp only [Molecule.calc_unit, Molecule.bond, Molecule.calc_bond, exMol]
  norm_num [sqrt_twenty_five]
  split_ifs <;> norm_num

/-- C10, the code at a concrete molecule: with `i = (3,0,4)`, `j = (1,0,0)`,
`k = (0,0,0)`, `l = (0,1,0)` and the real `sqrt`, `sin`, `asin`, `acos`, the
bond angle `angle(j,k,l)` is `90` (degrees), the angle defined by the claim
is `asin(4/5)` in degrees, and `calc_angle_oop` returns the clamped `asin`
of `(4/5) / sin(90)`, with `90` read as radians, which is a different
number. -/
theorem calc_angle_oop_sine_of_degrees :
    Molecule.angle ⟨Real.sqrt, Real.sin, Real.arcsin, Real.arccos⟩ (exMol ℝ) 1 2 3 = 90 ∧
    Molecule.angle_oop_spec ⟨Real.sqrt, Real.sin, Real.arcsin, Real.arccos⟩ (exMol ℝ)
      0 1 2 3 = Real.arcsin (4 / 5) * (180 / Real.pi) ∧
    Molecule.calc_angle_oop ⟨Real.sqrt, Real.sin, Real.arcsin, Real.arccos⟩ (exMol ℝ)
      0 1 2 3 =
      (if 4 / 5 / Real.sin 90 < -1 then Real.arcsin (-1)
        else if 4 / 5 / Real.sin 90 > 1 then Real.arcsin 1
        else Real.arcsin (4 / 5 / Real.sin 90)) * (180 / Real.pi) ∧
    Molecule.calc_angle_oop ⟨Real.sqrt, Real.sin, Real.arcsin, Real.arccos⟩ (exMol ℝ)
      0 1 2 3 ≠
      Molecule.angle_oop_spec ⟨Real.sqrt, Real.sin, Real.arcsin, Real.arccos⟩ (exMol ℝ)
        0 1 2 3 := by
  have hpi : Real.pi ≠ 0 := Real.pi_ne_zero
  have hang : Molecule.angle ⟨Real.sqrt, Real.sin, Real.arcsin, Real.arccos⟩ (exMol ℝ)
      1 2 3 = 90 := by
    simp only [Molecule.angle, Molecule.calc_angle, exMol_unit_kj, exMol_unit_kl]
    norm_num [Real.arccos_zero, Real.arccos_neg_one]
    field_simp
    ring
  have hspec : Molecule.angle_oop_spec ⟨Real.sqrt, Real.sin, Real.arcsin, Real.arccos⟩
      (exMol ℝ) 0 1 2 3 = Real.arcsin (4 / 5) * (180 / Real.pi) := by
    simp only [Molecule.angle_oop_spec, exMol_unit_kj, exMol_unit_kl, exMol_unit_ki]
    norm_num [Real.arccos_zero, Real.arccos_neg_one, Real.sin_pi_div_two]
  have hcode : Molecule.calc_angle_oop ⟨Real.sqrt, Real.sin, Real.arcsin, Real.arccos⟩
      (exMol ℝ) 0 1 2 3 =
      (if 4 / 5 / Real.sin 90 < -1 then Real.arcsin (-1)
        else if 4 / 5 / Real.sin 90 > 1 then Real.arcsin 1
        else Real.arcsin (4 / 5 / Real.sin 90)) * (180 / Real.pi) := by
    simp only [Molecule.calc_angle_oop, hang, exMol_unit_kj, exMol_unit_kl, exMol_unit_ki]
    norm_num [Real.arccos_neg_one]
  refine ⟨hang, hspec, hcode, ?_⟩
  rw [hcode, hspec]
  intro heq
  have hfac : (180 / Real.pi) ≠ 0 := div_ne_zero (by norm_num) hpi
  have hval := mul_right_cancel₀ hfac heq
  have hlt : Real.arcsin (4 / 5) < Real.pi / 2 :=
    Real.arcsin_lt_pi_div_two.mpr (by norm_num)
  have hpos : 0 < Real.arcsin (4 / 5) := Real.arcsin_pos.mpr (by norm_num)
  split_ifs at hval with h1 h2
  · rw [Real.arcsin_neg_one] at hval
    linarith [Real.pi_pos]
  · rw [Real.arcsin_one] at hval
    linarith
  · have hinj := (Real.arcsin_inj (le_of_not_lt h1) (le_of_not_lt h2) (by norm_num)
      (by norm_num)).mp hval
    by_cases hs : Real.sin 90 = 0
    · rw [hs, div_zero] at hinj
      norm_num at hinj
    · have : Real.sin 90 = 1 := by
        field_simp at hinj
        linarith
      exact sin_ninety_ne_one this

end geometry

end Crawdad
